import Mathlib

/-!
Verification of the RSVP speed-reading engine (`src/App.jsx`).

Tokens and texts are modelled as `List Char` (JS strings over the BMP code
points used here).  Pure helper functions of the source are translated into
executable Lean definitions; regex operations are translated by their
deterministic matching semantics.
-/

/-- Character class `[A-Za-z0-9]` of the source's regexes. -/
def isAlnum (c : Char) : Bool :=
  ('A' ≤ c && c ≤ 'Z') || ('a' ≤ c && c ≤ 'z') || ('0' ≤ c && c ≤ '9')

/-- Character class `[A-Za-z0-9'’\-]` (the tail of the core group in
`splitWord`'s regex). -/
def isCoreChar (c : Char) : Bool :=
  isAlnum c || c == '\'' || c == '’' || c == '-'

/-- Result record of `splitWord` (`{leading, core, trailing}`). -/
structure SplitParts where
  leading : List Char
  core : List Char
  trailing : List Char
deriving DecidableEq

/-- Translation of `splitWord` (App.jsx lines 52-58).  The regex
`^([^A-Za-z0-9]*)([A-Za-z0-9][A-Za-z0-9'’\-]*)([^A-Za-z0-9]*)$` matches iff
the maximal non-alnum prefix is followed by an alnum-led maximal run of core
characters whose remainder contains no alnum character; greedy matching makes
the three groups exactly these takeWhile/dropWhile fragments.  On a failed
match the source returns the whole word as `core`. -/
def splitWord (word : List Char) : SplitParts :=
  let leading := word.takeWhile (fun c => !isAlnum c)
  let rest := word.dropWhile (fun c => !isAlnum c)
  match rest with
  | [] => ⟨[], word, []⟩
  | _ :: _ =>
    let core := rest.takeWhile isCoreChar
    let trailing := rest.dropWhile isCoreChar
    if trailing.any isAlnum then ⟨[], word, []⟩
    else ⟨leading, core, trailing⟩

/-- Translation of `getORPIndex` (App.jsx lines 43-50). -/
def getORPIndex (word : List Char) : Nat :=
  if word.length ≤ 1 then 0
  else if word.length ≤ 5 then 1
  else if word.length ≤ 9 then 2
  else if word.length ≤ 13 then 3
  else 4

/-- Step function of a core length used by the spec's ORP table. -/
def orpOfLength (L : Nat) : Nat :=
  if L ≤ 1 then 0
  else if L ≤ 5 then 1
  else if L ≤ 9 then 2
  else if L ≤ 13 then 3
  else 4

/-- Shorthand for string literals as char lists. -/
def strL (s : String) : List Char := s.toList

/-- Character class `["'”’)\]\}»]` stripped from the end of a trailing
fragment before pause matching. -/
def isCloser (c : Char) : Bool :=
  c == '"' || c == '\'' || c == '”' || c == '’' || c == ')' || c == ']' ||
    c == '}' || c == '»'

/-- Translation of `normalizeTrailingForPause` (App.jsx lines 60-63): the
regex `/["'”’)\]\}»]+$/` removes the maximal trailing run of closing
quote/bracket characters (a no-op on the empty fragment, matching the
source's falsy early return). -/
def normalizeTrailingForPause (trailing : List Char) : List Char :=
  (trailing.reverse.dropWhile isCloser).reverse

/-- Character class `[.?!…]` of sentence-ending punctuation. -/
def isSentenceEnd (c : Char) : Bool :=
  c == '.' || c == '?' || c == '!' || c == '…'

/-- Character class `[:;]`. -/
def isColonSemi (c : Char) : Bool := c == ':' || c == ';'

/-- Test of an end-anchored character-class regex such as `/[.?!…]+$/`:
the string is non-empty and its last character is in the class. -/
def endsIn (cls : Char → Bool) (s : List Char) : Bool :=
  match s.getLast? with
  | some c => cls c
  | none => false

/-- Test of the dash regex (em-dash, or en-dash, or double hyphen, as
alternatives): the word contains one of them anywhere. -/
def hasDashMark : List Char → Bool
  | [] => false
  | c :: rest =>
    if c == '—' || c == '–' then true
    else if c == '-' then
      match rest with
      | d :: _ => if d == '-' then true else hasDashMark rest
      | [] => false
    else hasDashMark rest

/-- Translation of `getPauseMultiplier` (App.jsx lines 65-73), with the
implementation's floating-point literals modelled exactly in `ℚ`. -/
def getPauseMultiplier (word : List Char) : ℚ :=
  let trailing := (splitWord word).trailing
  let cleanedTrailing := normalizeTrailingForPause trailing
  if endsIn isSentenceEnd cleanedTrailing then 26/10
  else if endsIn isColonSemi cleanedTrailing then 19/10
  else if endsIn (fun c => c == ',') cleanedTrailing then 14/10
  else if hasDashMark word then 16/10
  else 1

/-- Translation of the per-tick delay computation
`ms = (60000 / wpm) * getPauseMultiplier(current)` (App.jsx line 651). -/
def delayMs (word : List Char) (wpm : ℚ) : ℚ :=
  60000 / wpm * getPauseMultiplier word

/-- Declarative reading of an end-anchored class regex: the string ends in a
non-empty run of characters of the class. -/
def EndsInRunOf (cls : Char → Bool) (s : List Char) : Prop :=
  ∃ p run, run ≠ [] ∧ (∀ c ∈ run, cls c = true) ∧ s = p ++ run

/-- Declarative reading of the dash regex: the word contains an em-dash, an
en-dash, or a double hyphen somewhere. -/
def ContainsDashMark (w : List Char) : Prop :=
  '—' ∈ w ∨ '–' ∈ w ∨ ∃ p q, w = p ++ '-' :: '-' :: q

/-- Declarative shape of a token on which `splitWord`'s regex succeeds:
some decomposition into a non-alnum prefix, an alnum-led run of core
characters, and a non-alnum suffix. -/
def HasDecompShape (t : List Char) : Prop :=
  ∃ l c r, t = l ++ c ++ r ∧
    (∀ x ∈ l, isAlnum x = false) ∧
    (∃ h tl, c = h :: tl ∧ isAlnum h = true ∧ ∀ x ∈ tl, isCoreChar x = true) ∧
    (∀ x ∈ r, isAlnum x = false)

/-- Local value `cleanedTrailing` of `getPauseMultiplier`. -/
def cleanedTrailing (word : List Char) : List Char :=
  normalizeTrailingForPause (splitWord word).trailing

/-- Whitespace class of the JS whitespace regex escape and String.trim. -/
def isJsWs (c : Char) : Bool :=
  c == ' ' || c == '\t' || c == '\n' || c == '\r' || c == '\x0b' ||
    c == '\x0c' || c == '\u00A0' || c == '\u1680' ||
    ('\u2000' ≤ c && c ≤ '\u200A') || c == '\u2028' || c == '\u2029' ||
    c == '\u202F' || c == '\u205F' || c == '\u3000' || c == '\uFEFF'

/-- Dash characters em-dash and en-dash (class of the dash regexes). -/
def isDashChar (c : Char) : Bool := c == '—' || c == '–'

/-- First replace of `normalizeWords` (App.jsx line 77): each occurrence of
alnum-dash-alnum becomes "$1$2 $3"; the scan resumes after each match. -/
def insertDashSpaces : List Char → List Char
  | a :: d :: b :: rest =>
    if isAlnum a && isDashChar d && isAlnum b then
      a :: d :: ' ' :: b :: insertDashSpaces rest
    else a :: insertDashSpaces (d :: b :: rest)
  | l => l

/-- Does the whitespace run starting here end at a dash character?  This is
exactly when the whitespace-dash-whitespace regex matches at this position
(whitespace never backtracks into a dash since the classes are disjoint). -/
def wsRunEndsAtDash : List Char → Bool
  | [] => false
  | c :: rest =>
    if isDashChar c then true
    else if isJsWs c then wsRunEndsAtDash rest
    else false

mutual

/-- Second replace of `normalizeWords` (App.jsx line 78): each dash together
with its surrounding whitespace is replaced by " $1 ", scanning left to
right and resuming after the consumed match. -/
def spaceDashes : List Char → List Char
  | [] => []
  | c :: rest =>
    if isDashChar c then ' ' :: c :: ' ' :: afterDash rest
    else if isJsWs c && wsRunEndsAtDash rest then wsToDash rest
    else c :: spaceDashes rest

/-- Consume the leading whitespace of a pending match up to its dash. -/
def wsToDash : List Char → List Char
  | [] => []
  | c :: rest =>
    if isDashChar c then ' ' :: c :: ' ' :: afterDash rest
    else wsToDash rest

/-- Skip the trailing whitespace of a match, then resume the scan (a dash
directly after the skipped whitespace starts a new match). -/
def afterDash : List Char → List Char
  | [] => []
  | c :: rest =>
    if isJsWs c then afterDash rest
    else if isDashChar c then ' ' :: c :: ' ' :: afterDash rest
    else c :: spaceDashes rest

end

/-- JS String.trim on a char list. -/
def jsTrim (s : List Char) : List Char :=
  ((s.dropWhile isJsWs).reverse.dropWhile isJsWs).reverse

mutual

/-- JS split on the one-or-more-whitespace regex: fragments between maximal
whitespace runs (an empty input yields one empty fragment, and a leading or
trailing separator yields an empty fragment, as in JS). -/
def splitWsAux : List Char → List Char → List (List Char)
  | [], acc => [acc.reverse]
  | c :: rest, acc =>
    if isJsWs c then acc.reverse :: splitWsSkip rest
    else splitWsAux rest (c :: acc)

/-- Continue a split after a separator character: skip the rest of the
whitespace run, then collect the next fragment. -/
def splitWsSkip : List Char → List (List Char)
  | [] => [[]]
  | c :: rest =>
    if isJsWs c then splitWsSkip rest
    else splitWsAux rest [c]

end

/-- Split a char list on whitespace runs, JS style. -/
def splitWs (s : List Char) : List (List Char) := splitWsAux s []

/-- Translation of `normalizeWords` (App.jsx lines 75-84): the two dash
replaces, trim, split on whitespace, and the filter keeping candidates whose
decomposed core is non-empty. -/
def normalizeWords (text : List Char) : List (List Char) :=
  let normalized := spaceDashes (insertDashSpaces text)
  (splitWs (jsTrim normalized)).filter
    (fun word => decide (0 < (splitWord word).core.length))

/-- First-occurrence deduplication with an accumulator of already-seen
values: the iteration order of a JS Set built by insertion. -/
def dedupFirstAux : List Nat → List Nat → List Nat
  | [], _ => []
  | x :: rest, seen =>
    if x ∈ seen then dedupFirstAux rest seen
    else x :: dedupFirstAux rest (x :: seen)

/-- JS `Array.from(new Set(starts))`. -/
def dedupFirst (l : List Nat) : List Nat := dedupFirstAux l []

/-- Translation of the `chapterStarts` memo (App.jsx lines 422-431): the
finite TOC indices are sorted ascending, 0 is prepended when not already the
first entry, and duplicates are collapsed in first-occurrence order. -/
def chapterStarts (tocIdxs : List Nat) : List Nat :=
  match tocIdxs with
  | [] => []
  | _ :: _ =>
    let starts := List.insertionSort (· ≤ ·) tocIdxs
    let starts2 := if starts.head? = some 0 then starts else 0 :: starts
    dedupFirst starts2

/-- Find loop of the interval effect (App.jsx lines 659-665): the first
chapter start strictly greater than the previous index. -/
def findNextStart (cs : List Nat) (prev : Nat) : Option Nat :=
  cs.find? (fun s => decide (prev < s))

/-- Translation of the `setCurrentIndex` updater of the interval effect
(App.jsx lines 653-674): given the stream length, the chapter-start table
and the previous index, yield the next index and whether playback is still
on (`false` means the updater stopped playback at end of stream). -/
def schedulerTick (n : Nat) (cs : List Nat) (prev : Nat) : Nat × Bool :=
  if n ≤ prev + 1 then (prev, false)
  else if 1 < cs.length then
    match findNextStart cs prev with
    | some nextStart =>
      if nextStart ≤ prev + 1 then (nextStart, true) else (prev + 1, true)
    | none => (prev + 1, true)
  else (prev + 1, true)

/-- One line of the alternate-mode context display. -/
structure CtxLine where
  text : List Char
  distance : Nat
deriving DecidableEq

/-- Result of the `contextLines` memo. -/
structure ContextLines where
  before : List CtxLine
  after : List CtxLine
deriving DecidableEq

/-- JS `lineWords.join(" ")`. -/
def joinSpace : List (List Char) → List Char
  | [] => []
  | [w] => w
  | w :: rest => w ++ ' ' :: joinSpace rest

/-- Inner while loop of `contextLines` (App.jsx lines 701-708 and 718-724):
consume words from a stream into a line until adding the next word (plus a
separating space when the line is non-empty) would exceed the limit while
the line is already non-empty.  The accumulator holds consumed words
most-recent-first; the unconsumed remainder is returned alongside. -/
def takeLineAux (maxChars : Nat) :
    List (List Char) → List (List Char) → Nat →
    List (List Char) × List (List Char)
  | [], acc, _ => (acc, [])
  | w :: rest, acc, len =>
    let add := w.length + (if 0 < len then 1 else 0)
    if maxChars < len + add ∧ 0 < len then (acc, w :: rest)
    else takeLineAux maxChars rest (w :: acc) (len + add)

/-- Outer for loop of `contextLines`: build up to `fuel` lines from the
stream, tagging each with the 1-based loop counter as its distance.  With
`keepOrder` the accumulator order is already the display order (the
backward walk prepends); otherwise it is reversed (the forward walk
appends). -/
def buildLines (maxChars : Nat) (keepOrder : Bool) :
    Nat → Nat → List (List Char) → List CtxLine
  | 0, _, _ => []
  | _ + 1, _, [] => []
  | fuel + 1, dist, w :: rest =>
    let pr := takeLineAux maxChars (w :: rest) [] 0
    let lineWords := if keepOrder then pr.1 else pr.1.reverse
    if lineWords.isEmpty then buildLines maxChars keepOrder fuel (dist + 1) pr.2
    else ⟨joinSpace lineWords, dist⟩ ::
      buildLines maxChars keepOrder fuel (dist + 1) pr.2

/-- Translation of the `contextLines` memo (App.jsx lines 688-733) on the
alternate-reading-mode path: the line-length limit is clamped to at least
18; up to three lines are built walking backward from the current position
(collected in reading order, then the list of lines is reversed so the
farthest line comes first) and up to three walking forward. -/
def contextLines (words : List (List Char)) (currentIndex : Nat)
    (contextLineChars : Nat) : ContextLines :=
  let maxChars := max 18 contextLineChars
  let before :=
    (buildLines maxChars true 3 1 ((words.take currentIndex).reverse)).reverse
  let after := buildLines maxChars false 3 1 (words.drop (currentIndex + 1))
  ⟨before, after⟩

/-- Persisted progress record (`{currentIndex, bookmarks}`). -/
structure SavedProgress where
  currentIndex : Int
  bookmarks : List Int
deriving DecidableEq

/-- Outcome of the restore-location step inside `parseBook`. -/
inductive RestoreOutcome where
  | restored (currentIndex : Int) (bookmarks : List Int)
  | aborted
deriving DecidableEq

/-- Translation of the restore-location step of `parseBook` (App.jsx lines
486-490) together with its enclosing catch handler (lines 494-498).  The
argument models `JSON.parse(localStorage.getItem(progressKey))`: a parse
error (corrupt JSON) throws into the shared catch, which alerts and calls
`onBack()`, aborting the open-book flow; a missing record (null) leaves the
initial position 0 and empty bookmarks; a parsed record is applied verbatim
(a falsy index 0 is skipped, leaving 0; no clamping is performed). -/
def restoreLocation : Except Unit (Option SavedProgress) → RestoreOutcome
  | .error _ => .aborted
  | .ok none => .restored 0 []
  | .ok (some s) =>
      .restored (if s.currentIndex ≠ 0 then s.currentIndex else 0) s.bookmarks

/-- The reader state consulted by `togglePlay` and the interval effect. -/
structure ReaderState where
  isPlaying : Bool
  wpm : Nat
  wordCount : Nat
deriving DecidableEq

/-- Translation of `togglePlay` (App.jsx line 610): an unconditional flip of
the play flag. -/
def togglePlay (s : ReaderState) : ReaderState :=
  { s with isPlaying := !s.isPlaying }

/-- Rate change as performed by the slider and arrow keys. -/
def setWpm (s : ReaderState) (w : Nat) : ReaderState := { s with wpm := w }

/-- Scheduling guard of the interval effect (App.jsx lines 644-648): a tick
timer is armed exactly when the play flag is set, the rate is positive and
the stream is non-empty. -/
def timerArmed (s : ReaderState) : Bool :=
  s.isPlaying && decide (0 < s.wpm) && decide (0 < s.wordCount)

-- ===== helper lemmas =====

lemma getPauseMultiplier_eq (w : List Char) :
    getPauseMultiplier w =
      if endsIn isSentenceEnd (cleanedTrailing w) then 26/10
      else if endsIn isColonSemi (cleanedTrailing w) then 19/10
      else if endsIn (fun c => c == ',') (cleanedTrailing w) then 14/10
      else if hasDashMark w then 16/10
      else 1 := rfl

lemma endsIn_run_iff (cls : Char → Bool) (s : List Char) :
    EndsInRunOf cls s ↔ endsIn cls s = true := by
  constructor
  · rintro ⟨p, run, hne, hall, hs⟩
    have hrun : run.dropLast ++ [run.getLast hne] = run :=
      List.dropLast_append_getLast hne
    have hs' : s = (p ++ run.dropLast) ++ [run.getLast hne] := by
      rw [List.append_assoc, hrun, hs]
    have hlast : s.getLast? = some (run.getLast hne) := by
      rw [hs']; exact List.getLast?_concat _
    unfold endsIn
    rw [hlast]
    exact hall _ (List.getLast_mem hne)
  · intro he
    unfold endsIn at he
    rcases hl : s.getLast? with _ | c
    · rw [hl] at he; simp at he
    · rw [hl] at he
      have hne : s ≠ [] := by
        intro h; rw [h] at hl; simp at hl
      have hgl : s.getLast hne = c := by
        have := List.getLast?_eq_getLast s hne
        rw [hl] at this
        exact (Option.some_injective _ this.symm)
      have he' : cls c = true := by simpa using he
      exact ⟨s.dropLast, [s.getLast hne], by simp, by simp [hgl, he'],
        (List.dropLast_append_getLast hne).symm⟩

lemma endsIn_eq_false_of_not {cls : Char → Bool} {s : List Char}
    (h : ¬ EndsInRunOf cls s) : endsIn cls s = false := by
  cases he : endsIn cls s
  · rfl
  · exact absurd ((endsIn_run_iff cls s).mpr he) h

lemma hasDashMark_cons_of {rest : List Char} (c : Char)
    (h : hasDashMark rest = true) : hasDashMark (c :: rest) = true := by
  unfold hasDashMark
  by_cases h1 : (c == '—' || c == '–') = true
  · simp [h1]
  · by_cases h2 : (c == '-') = true
    · rcases rest with _ | ⟨d, rest'⟩
      · simp [hasDashMark] at h
      · by_cases h3 : (d == '-') = true
        · simp [h1, h2, h3]
        · simp only [h1, h2, h3]
          simp only [Bool.false_eq_true, if_false, if_true]
          exact h
    · simp only [h1, h2]
      simp only [Bool.false_eq_true, if_false]
      exact h

lemma containsDashMark_cons {rest : List Char} (c : Char)
    (h : ContainsDashMark rest) : ContainsDashMark (c :: rest) := by
  rcases h with h | h | ⟨p, q, hpq⟩
  · exact Or.inl (List.mem_cons_of_mem c h)
  · exact Or.inr (Or.inl (List.mem_cons_of_mem c h))
  · exact Or.inr (Or.inr ⟨c :: p, q, by rw [hpq]; rfl⟩)

lemma containsDashMark_iff (w : List Char) :
    ContainsDashMark w ↔ hasDashMark w = true := by
  induction w with
  | nil =>
    constructor
    · rintro (h | h | ⟨p, q, hpq⟩)
      · simp at h
      · simp at h
      · exact absurd hpq (by simp)
    · intro h; simp [hasDashMark] at h
  | cons c rest ih =>
    constructor
    · rintro (h | h | ⟨p, q, hpq⟩)
      · rcases List.mem_cons.mp h with h | h
        · unfold hasDashMark; simp [← h]
        · exact hasDashMark_cons_of c (ih.mp (Or.inl h))
      · rcases List.mem_cons.mp h with h | h
        · unfold hasDashMark; simp [← h]
        · exact hasDashMark_cons_of c (ih.mp (Or.inr (Or.inl h)))
      · rcases p with _ | ⟨a, p'⟩
        · simp only [List.nil_append] at hpq
          cases hpq
          unfold hasDashMark
          simp
        · simp only [List.cons_append] at hpq
          have hc : c = a := (List.cons.injEq _ _ _ _ ▸ hpq).1
          have hrest : rest = p' ++ '-' :: '-' :: q :=
            (List.cons.injEq _ _ _ _ ▸ hpq).2
          exact hasDashMark_cons_of c
            (ih.mp (Or.inr (Or.inr ⟨p', q, hrest⟩)))
    · intro h
      unfold hasDashMark at h
      by_cases h1 : (c == '—' || c == '–') = true
      · rcases Bool.or_eq_true_iff.mp h1 with h1 | h1
        · exact Or.inl (by rw [eq_of_beq h1]; exact List.mem_cons_self _ _)
        · exact Or.inr (Or.inl
            (by rw [eq_of_beq h1]; exact List.mem_cons_self _ _))
      · by_cases h2 : (c == '-') = true
        · rcases rest with _ | ⟨d, rest'⟩
          · simp [h1, h2] at h
          · by_cases h3 : (d == '-') = true
            · refine Or.inr (Or.inr ⟨[], rest', ?_⟩)
              simp [eq_of_beq h2, eq_of_beq h3]
            · simp only [h1, h2, h3] at h
              simp only [Bool.false_eq_true, if_false, if_true] at h
              exact containsDashMark_cons c (ih.mpr h)
        · simp only [h1, h2] at h
          simp only [Bool.false_eq_true, if_false] at h
          exact containsDashMark_cons c (ih.mpr h)

lemma hasDashMark_eq_false_of_not {w : List Char}
    (h : ¬ ContainsDashMark w) : hasDashMark w = false := by
  cases he : hasDashMark w
  · rfl
  · exact absurd ((containsDashMark_iff w).mpr he) h

lemma dropWhile_head_false {p : Char → Bool} {t : List Char} {r : Char}
    {rs : List Char} (h : t.dropWhile p = r :: rs) : p r = false := by
  induction t with
  | nil => simp [List.dropWhile] at h
  | cons a t ih =>
    by_cases hp : p a
    · rw [List.dropWhile_cons_of_pos hp] at h; exact ih h
    · rw [List.dropWhile_cons_of_neg hp] at h
      cases h; simpa using hp

lemma dropWhile_append_of_all {p : Char → Bool} {l : List Char}
    (hl : ∀ x ∈ l, p x = true) (m : List Char) :
    (l ++ m).dropWhile p = m.dropWhile p := by
  induction l with
  | nil => rfl
  | cons a l ih =>
    have ha : p a = true := hl a (by simp)
    simp only [List.cons_append, List.dropWhile_cons_of_pos ha]
    exact ih (fun x hx => hl x (by simp [hx]))

lemma mem_of_mem_dropWhile {p : Char → Bool} {l : List Char} {x : Char}
    (h : x ∈ l.dropWhile p) : x ∈ l :=
  (List.dropWhile_sublist p (l := l)).subset h

/-- When the regex's match succeeds (the remainder after the core run has no
alnum character), the token has the declarative decomposition shape. -/
lemma splitWord_shape_of_success {t : List Char} {r : Char} {rs : List Char}
    (hrest : t.dropWhile (fun c => !isAlnum c) = r :: rs)
    (htr : ((r :: rs).dropWhile isCoreChar).any isAlnum = false) :
    HasDecompShape t := by
  have hr : isAlnum r = true := by
    have := dropWhile_head_false hrest
    simpa using this
  refine ⟨t.takeWhile (fun c => !isAlnum c),
          (r :: rs).takeWhile isCoreChar,
          (r :: rs).dropWhile isCoreChar, ?_, ?_, ?_, ?_⟩
  · rw [List.append_assoc, List.takeWhile_append_dropWhile, ← hrest,
      List.takeWhile_append_dropWhile]
  · intro x hx
    have := List.mem_takeWhile_imp hx
    simpa using this
  · have hrc : isCoreChar r = true := by simp [isCoreChar, hr]
    refine ⟨r, rs.takeWhile isCoreChar, ?_, hr, ?_⟩
    · simp [List.takeWhile_cons_of_pos hrc]
    · intro x hx; exact List.mem_takeWhile_imp hx
  · intro x hx
    by_contra hcontra
    have hxa : isAlnum x = true := by
      cases hax : isAlnum x with
      | false => exact absurd hax hcontra
      | true => rfl
    have : ((r :: rs).dropWhile isCoreChar).any isAlnum = true :=
      List.any_eq_true.mpr ⟨x, hx, hxa⟩
    rw [htr] at this; exact Bool.false_ne_true this

/-- Executable test for `HasDecompShape`. -/
lemma hasDecompShape_iff (t : List Char) :
    HasDecompShape t ↔
      (t.dropWhile (fun c => !isAlnum c) ≠ [] ∧
       ((t.dropWhile (fun c => !isAlnum c)).dropWhile isCoreChar).any isAlnum
         = false) := by
  constructor
  · rintro ⟨l, c, r, ht, hl, ⟨h, tl, hc, hh, htl⟩, hr⟩
    have hrest : t.dropWhile (fun c => !isAlnum c) = c ++ r := by
      rw [ht, List.append_assoc]
      rw [dropWhile_append_of_all (by intro x hx; simp [hl x hx]) (c ++ r)]
      rw [hc]
      simp only [List.cons_append]
      rw [List.dropWhile_cons_of_neg (by simp [hh])]
    have hcall : ∀ x ∈ c, isCoreChar x = true := by
      intro x hx
      rw [hc] at hx
      rcases List.mem_cons.mp hx with hx | hx
      · subst hx; simp [isCoreChar, hh]
      · exact htl x hx
    constructor
    · rw [hrest, hc]; simp
    · rw [hrest, dropWhile_append_of_all hcall r]
      cases hany : (r.dropWhile isCoreChar).any isAlnum with
      | false => rfl
      | true =>
        rcases List.any_eq_true.mp hany with ⟨x, hx, hxa⟩
        have := hr x (mem_of_mem_dropWhile hx)
        rw [this] at hxa
        exact absurd hxa (by simp)
  · rintro ⟨hne, hany⟩
    rcases hr : t.dropWhile (fun c => !isAlnum c) with _ | ⟨r, rs⟩
    · exact absurd hr hne
    · exact splitWord_shape_of_success hr (by rw [← hr]; rw [hr] at hany ⊢; exact hany)

-- ===== claim theorems (splitWord cluster) =====

/-- C3: for every non-empty core string, the ORP index is purely a function
of its length `L`: `L ≤ 1` gives 0, `L ≤ 5` gives 1, `L ≤ 9` gives 2,
`L ≤ 13` gives 3, larger gives 4. -/
theorem claim_C3_orp_index (c : List Char) (h : c ≠ []) :
    (c.length ≤ 1 → getORPIndex c = 0) ∧
    (2 ≤ c.length → c.length ≤ 5 → getORPIndex c = 1) ∧
    (6 ≤ c.length → c.length ≤ 9 → getORPIndex c = 2) ∧
    (10 ≤ c.length → c.length ≤ 13 → getORPIndex c = 3) ∧
    (14 ≤ c.length → getORPIndex c = 4) ∧
    (∀ c' : List Char, c.length = c'.length → getORPIndex c = getORPIndex c') := by
  refine ⟨?_, ?_, ?_, ?_, ?_, ?_⟩
  · intro h1; unfold getORPIndex; split_ifs <;> omega
  · intro h1 h2; unfold getORPIndex; split_ifs <;> omega
  · intro h1 h2; unfold getORPIndex; split_ifs <;> omega
  · intro h1 h2; unfold getORPIndex; split_ifs <;> omega
  · intro h1; unfold getORPIndex; split_ifs <;> omega
  · intro c' hlen; unfold getORPIndex; rw [hlen]

/-- Witness for C3 at the core "word" (length 4, index 1). -/
theorem claim_C3_orp_index_witness :
    strL "word" ≠ [] ∧ getORPIndex (strL "word") = 1 :=
  ⟨by decide, (claim_C3_orp_index (strL "word") (by decide)).2.1 (by decide) (by decide)⟩

/-- C4: for every non-empty token, `splitWord`'s fragments concatenate back
to the token, the core is non-empty, and a token with no alphanumeric
character at all is returned whole as the core with empty leading/trailing. -/
theorem claim_C4_decompose_roundtrip (t : List Char) (ht : t ≠ []) :
    (splitWord t).leading ++ (splitWord t).core ++ (splitWord t).trailing = t ∧
    (splitWord t).core ≠ [] ∧
    (t.all (fun c => !isAlnum c) → splitWord t = ⟨[], t, []⟩) := by
  rcases hrest : t.dropWhile (fun c => !isAlnum c) with _ | ⟨r, rs⟩
  · have hsw : splitWord t = ⟨[], t, []⟩ := by
      unfold splitWord; rw [hrest]
    rw [hsw]
    exact ⟨by simp, ht, fun _ => rfl⟩
  · by_cases hany : ((r :: rs).dropWhile isCoreChar).any isAlnum
    · have hsw : splitWord t = ⟨[], t, []⟩ := by
        unfold splitWord; rw [hrest]; simp [hany]
      rw [hsw]
      exact ⟨by simp, ht, fun _ => rfl⟩
    · have hany' : ((r :: rs).dropWhile isCoreChar).any isAlnum = false := by
        simpa using hany
      have hsw : splitWord t = ⟨t.takeWhile (fun c => !isAlnum c),
          (r :: rs).takeWhile isCoreChar, (r :: rs).dropWhile isCoreChar⟩ := by
        unfold splitWord; rw [hrest]; simp [hany']
      have hr : isAlnum r = true := by
        have := dropWhile_head_false hrest
        simpa using this
      rw [hsw]
      refine ⟨?_, ?_, ?_⟩
      · show t.takeWhile (fun c => !isAlnum c) ++
          (r :: rs).takeWhile isCoreChar ++ (r :: rs).dropWhile isCoreChar = t
        rw [List.append_assoc, List.takeWhile_append_dropWhile, ← hrest,
          List.takeWhile_append_dropWhile]
      · have hrc : isCoreChar r = true := by simp [isCoreChar, hr]
        show (r :: rs).takeWhile isCoreChar ≠ []
        simp [List.takeWhile_cons_of_pos hrc]
      · intro hall
        exfalso
        have hrt : r ∈ t := by
          have : r ∈ r :: rs := by simp
          rw [← hrest] at this
          exact mem_of_mem_dropWhile this
        have := List.all_eq_true.mp hall r hrt
        rw [hr] at this
        simp at this

/-- Witness for C4 at the token "word.". -/
theorem claim_C4_decompose_roundtrip_witness :
    strL "word." ≠ [] ∧
    (splitWord (strL "word.")).leading ++ (splitWord (strL "word.")).core ++
      (splitWord (strL "word.")).trailing = strL "word." :=
  ⟨by decide, (claim_C4_decompose_roundtrip (strL "word.") (by decide)).1⟩

/-- C7 counterexample: `decompose("'Tis")` is NOT
`{leading:"", core:"'Tis", trailing:""}` — the regex requires the core to
start with an alphanumeric character, so the apostrophe lands in `leading`. -/
theorem claim_C7_counterexample :
    splitWord (strL "'Tis") ≠ ⟨[], strL "'Tis", []⟩ := by decide

/-- C7 amended: the first two fixtures hold as stated, and
`decompose("'Tis") = {leading:"'", core:"Tis", trailing:""}` (a leading
apostrophe is never part of the core; apostrophes join the core only after
its alphanumeric first character). -/
theorem claim_C7_fixtures :
    splitWord (strL "word.") = ⟨[], strL "word", strL "."⟩ ∧
    splitWord (strL "—word") = ⟨strL "—", strL "word", []⟩ ∧
    splitWord (strL "'Tis") = ⟨strL "'", strL "Tis", []⟩ := by decide

/-- C10: a token that contains an alphanumeric character but does not have
the shape (non-alnum prefix)(alnum-led core run)(non-alnum suffix) — for
example "ab.cd" — is returned whole as the core by the fallback branch. -/
theorem claim_C10_whole_token_fallback (t : List Char) (h1 : t ≠ [])
    (h2 : t.any isAlnum = true) (h3 : ¬ HasDecompShape t) :
    splitWord t = ⟨[], t, []⟩ := by
  unfold splitWord
  rcases hrest : t.dropWhile (fun c => !isAlnum c) with _ | ⟨r, rs⟩
  · rfl
  · simp only [hrest]
    by_cases hany : ((r :: rs).dropWhile isCoreChar).any isAlnum
    · simp [hany]
    · exfalso
      exact h3 (splitWord_shape_of_success hrest (by simpa using hany))

/-- Witness for C10 at the token "ab.cd". -/
theorem claim_C10_whole_token_fallback_witness :
    strL "ab.cd" ≠ [] ∧ (strL "ab.cd").any isAlnum = true ∧
    splitWord (strL "ab.cd") = ⟨[], strL "ab.cd", []⟩ :=
  ⟨by decide, by decide,
    claim_C10_whole_token_fallback (strL "ab.cd") (by decide) (by decide)
      (by rw [hasDecompShape_iff]; decide)⟩

/-- C1: for every word and base rate `r > 0` the scheduled delay is
`60000 / r` milliseconds times the pause multiplier, and the multiplier is
selected by first-match priority against the trailing fragment with closing
quotes/brackets stripped: sentence-ending run 2.6, colon/semicolon run 1.9,
comma run 1.4, else a dash mark anywhere in the raw word 1.6, else 1. -/
theorem claim_C1_pause_delay (w : List Char) (r : ℚ) (hr : 0 < r) :
    delayMs w r = 60000 / r * getPauseMultiplier w ∧
    (EndsInRunOf isSentenceEnd (cleanedTrailing w) →
      getPauseMultiplier w = 26/10) ∧
    (¬ EndsInRunOf isSentenceEnd (cleanedTrailing w) →
      EndsInRunOf isColonSemi (cleanedTrailing w) →
      getPauseMultiplier w = 19/10) ∧
    (¬ EndsInRunOf isSentenceEnd (cleanedTrailing w) →
      ¬ EndsInRunOf isColonSemi (cleanedTrailing w) →
      EndsInRunOf (fun c => c == ',') (cleanedTrailing w) →
      getPauseMultiplier w = 14/10) ∧
    (¬ EndsInRunOf isSentenceEnd (cleanedTrailing w) →
      ¬ EndsInRunOf isColonSemi (cleanedTrailing w) →
      ¬ EndsInRunOf (fun c => c == ',') (cleanedTrailing w) →
      ContainsDashMark w →
      getPauseMultiplier w = 16/10) ∧
    (¬ EndsInRunOf isSentenceEnd (cleanedTrailing w) →
      ¬ EndsInRunOf isColonSemi (cleanedTrailing w) →
      ¬ EndsInRunOf (fun c => c == ',') (cleanedTrailing w) →
      ¬ ContainsDashMark w →
      getPauseMultiplier w = 1) := by
  refine ⟨rfl, ?_, ?_, ?_, ?_, ?_⟩
  · intro h1
    rw [getPauseMultiplier_eq, if_pos ((endsIn_run_iff _ _).mp h1)]
  · intro h1 h2
    rw [getPauseMultiplier_eq]
    rw [endsIn_eq_false_of_not h1]
    rw [(endsIn_run_iff _ _).mp h2]
    rfl
  · intro h1 h2 h3
    rw [getPauseMultiplier_eq]
    rw [endsIn_eq_false_of_not h1, endsIn_eq_false_of_not h2]
    rw [(endsIn_run_iff _ _).mp h3]
    rfl
  · intro h1 h2 h3 h4
    rw [getPauseMultiplier_eq]
    rw [endsIn_eq_false_of_not h1, endsIn_eq_false_of_not h2,
      endsIn_eq_false_of_not h3]
    rw [(containsDashMark_iff _).mp h4]
    rfl
  · intro h1 h2 h3 h4
    rw [getPauseMultiplier_eq]
    rw [endsIn_eq_false_of_not h1, endsIn_eq_false_of_not h2,
      endsIn_eq_false_of_not h3, hasDashMark_eq_false_of_not h4]
    rfl

/-- Witness for C1: the three fixtures at 600 wpm — "end." gives 260 ms,
"pause," gives 140 ms, and a sentence stop inside a trailing double quote
still gives 260 ms (quote-stripping happens before matching). -/
theorem claim_C1_pause_delay_witness :
    (0 : ℚ) < 600 ∧
    delayMs (strL "end.") 600 = 260 ∧
    delayMs (strL "pause,") 600 = 140 ∧
    delayMs (strL "quote.\"") 600 = 260 := by
  refine ⟨by norm_num, ?_, ?_, ?_⟩
  · rw [(claim_C1_pause_delay (strL "end.") 600 (by norm_num)).1]
    have hm : getPauseMultiplier (strL "end.") = 26/10 := rfl
    rw [hm]; norm_num
  · rw [(claim_C1_pause_delay (strL "pause,") 600 (by norm_num)).1]
    have hm : getPauseMultiplier (strL "pause,") = 14/10 := rfl
    rw [hm]; norm_num
  · rw [(claim_C1_pause_delay (strL "quote.\"") 600 (by norm_num)).1]
    have hm : getPauseMultiplier (strL "quote.\"") = 26/10 := rfl
    rw [hm]; norm_num

lemma splitWord_core_ne_nil {t : List Char} (ht : t ≠ []) :
    (splitWord t).core ≠ [] := by
  rcases hrest : t.dropWhile (fun c => !isAlnum c) with _ | ⟨r, rs⟩
  · have hsw : splitWord t = ⟨[], t, []⟩ := by unfold splitWord; rw [hrest]
    rw [hsw]; exact ht
  · by_cases hany : ((r :: rs).dropWhile isCoreChar).any isAlnum
    · have hsw : splitWord t = ⟨[], t, []⟩ := by
        unfold splitWord; rw [hrest]; simp [hany]
      rw [hsw]; exact ht
    · have hany' : ((r :: rs).dropWhile isCoreChar).any isAlnum = false := by
        simpa using hany
      have hsw : splitWord t = ⟨t.takeWhile (fun c => !isAlnum c),
          (r :: rs).takeWhile isCoreChar, (r :: rs).dropWhile isCoreChar⟩ := by
        unfold splitWord; rw [hrest]; simp [hany']
      have hr : isAlnum r = true := by simpa using dropWhile_head_false hrest
      have hrc : isCoreChar r = true := by simp [isCoreChar, hr]
      rw [hsw]
      show (r :: rs).takeWhile isCoreChar ≠ []
      simp [List.takeWhile_cons_of_pos hrc]

lemma core_length_filter_eq (w : List Char) :
    decide (0 < (splitWord w).core.length) = !w.isEmpty := by
  cases w with
  | nil => rfl
  | cons c cs =>
    have h := splitWord_core_ne_nil (t := c :: cs) (by simp)
    have hpos : 0 < (splitWord (c :: cs)).core.length :=
      List.length_pos.mpr h
    simp [hpos]

/-- C5 counterexample: the claim says a fragment containing no letter or
digit never appears in the output token array, but `normalizeWords "!!"`
returns the pure-punctuation token "!!" (the decomposer's fallback makes the
whole token its own core, so the filter keeps it). -/
theorem claim_C5_counterexample :
    normalizeWords (strL "!!") = [strL "!!"] ∧
    (strL "!!").any isAlnum = false := by decide

/-- C5 amended: the filter in `normalizeWords` discards exactly the empty
whitespace-split candidates — every non-empty candidate has a non-empty
fallback core and survives, including pure punctuation fragments; in
particular every output token is non-empty. -/
theorem claim_C5_amended (text : List Char) :
    normalizeWords text =
      (splitWs (jsTrim (spaceDashes (insertDashSpaces text)))).filter
        (fun w => !w.isEmpty) ∧
    ∀ w ∈ normalizeWords text, w ≠ [] := by
  constructor
  · unfold normalizeWords
    exact List.filter_congr (fun w _ => core_length_filter_eq w)
  · intro w hw
    unfold normalizeWords at hw
    have hp := List.of_mem_filter hw
    rw [core_length_filter_eq] at hp
    simpa using hp

lemma dedupFirstAux_sublist : ∀ (l seen : List Nat), List.Sublist (dedupFirstAux l seen) l := by
  intro l
  induction l with
  | nil => intro seen; simp [dedupFirstAux]
  | cons x rest ih =>
    intro seen
    unfold dedupFirstAux
    by_cases hx : x ∈ seen
    · rw [if_pos hx]
      exact (ih seen).cons x
    · rw [if_neg hx]
      exact (ih (x :: seen)).cons₂ x

lemma dedupFirstAux_nodup_notin :
    ∀ (l seen : List Nat),
      (dedupFirstAux l seen).Nodup ∧ ∀ x ∈ dedupFirstAux l seen, x ∉ seen := by
  intro l
  induction l with
  | nil => intro seen; exact ⟨List.nodup_nil, by simp [dedupFirstAux]⟩
  | cons y rest ih =>
    intro seen
    unfold dedupFirstAux
    by_cases hy : y ∈ seen
    · rw [if_pos hy]; exact ih seen
    · rw [if_neg hy]
      obtain ⟨hnd, hnotin⟩ := ih (y :: seen)
      constructor
      · refine List.nodup_cons.mpr ⟨?_, hnd⟩
        intro hmem
        exact (hnotin y hmem) (by simp)
      · intro x hx
        rcases List.mem_cons.mp hx with rfl | hx'
        · exact hy
        · intro hxs
          exact (hnotin x hx') (by simp [hxs])

lemma sorted_lt_of_le_nodup {l : List Nat} (hs : l.Sorted (· ≤ ·))
    (hn : l.Nodup) : l.Sorted (· < ·) := by
  have hand := List.Pairwise.and hs hn
  exact hand.imp (fun hab => lt_of_le_of_ne hab.1 hab.2)

lemma chapterStarts_sorted (tocIdxs : List Nat) :
    (chapterStarts tocIdxs).Sorted (· < ·) := by
  cases tocIdxs with
  | nil => simp [chapterStarts]
  | cons a l =>
    show (dedupFirst (if (List.insertionSort (· ≤ ·) (a :: l)).head? = some 0
        then List.insertionSort (· ≤ ·) (a :: l)
        else 0 :: List.insertionSort (· ≤ ·) (a :: l))).Sorted (· < ·)
    have hsorted : (List.insertionSort (· ≤ ·) (a :: l)).Sorted (· ≤ ·) :=
      List.sorted_insertionSort (· ≤ ·) (a :: l)
    have hsorted2 : (if (List.insertionSort (· ≤ ·) (a :: l)).head? = some 0
        then List.insertionSort (· ≤ ·) (a :: l)
        else 0 :: List.insertionSort (· ≤ ·) (a :: l)).Sorted (· ≤ ·) := by
      split
      · exact hsorted
      · exact List.sorted_cons.mpr ⟨fun b _ => Nat.zero_le b, hsorted⟩
    have hsub := dedupFirstAux_sublist (if (List.insertionSort (· ≤ ·) (a :: l)).head? = some 0
        then List.insertionSort (· ≤ ·) (a :: l)
        else 0 :: List.insertionSort (· ≤ ·) (a :: l)) []
    exact sorted_lt_of_le_nodup (List.Pairwise.sublist hsub hsorted2)
      (dedupFirstAux_nodup_notin _ []).1

lemma find_first_gt_eq_least {cs : List Nat} (hs : cs.Sorted (· < ·))
    {prev s : Nat} (hmem : s ∈ cs) (hgt : prev < s)
    (hleast : ∀ x ∈ cs, prev < x → s ≤ x) :
    findNextStart cs prev = some s := by
  unfold findNextStart
  induction cs with
  | nil => simp at hmem
  | cons h t ih =>
    by_cases hh : prev < h
    · rw [List.find?_cons_of_pos _ (by simpa using hh)]
      rcases List.mem_cons.mp hmem with rfl | hmem'
      · rfl
      · have hsh : h < s := (List.sorted_cons.mp hs).1 s hmem'
        have hle : s ≤ h := hleast h (by simp) hh
        exact absurd (lt_of_lt_of_le hsh hle) (lt_irrefl _)
    · rw [List.find?_cons_of_neg _ (by simpa using hh)]
      rcases List.mem_cons.mp hmem with rfl | hmem'
      · exact absurd hgt hh
      · exact ih (List.sorted_cons.mp hs).2 hmem'
          (fun x hx hpx => hleast x (by simp [hx]) hpx)

lemma find_first_gt_none {cs : List Nat} {prev : Nat}
    (h : ∀ x ∈ cs, x ≤ prev) : findNextStart cs prev = none := by
  unfold findNextStart
  induction cs with
  | nil => rfl
  | cons a t ih =>
    rw [List.find?_cons_of_neg _
      (by simpa using Nat.not_lt.mpr (h a (by simp)))]
    exact ih (fun x hx => h x (by simp [hx]))

/-- C2: on a tick of the running scheduler over a non-empty stream, a
position at the last valid index stops playback and stays put (and the new
position is always in bounds); otherwise, when the chapter-start table has
more than one entry and the least chapter start strictly above the position
exists, the position jumps to it exactly when it sits one before that start,
and in every other situation the position advances by exactly one. -/
theorem claim_C2_scheduler_tick (n prev : Nat) (tocIdxs : List Nat)
    (hn : 0 < n) (hprev : prev < n) :
    (prev = n - 1 →
      schedulerTick n (chapterStarts tocIdxs) prev = (prev, false)) ∧
    ((schedulerTick n (chapterStarts tocIdxs) prev).1 < n) ∧
    (∀ s, prev + 1 < n → 1 < (chapterStarts tocIdxs).length →
      s ∈ chapterStarts tocIdxs → prev < s →
      (∀ x ∈ chapterStarts tocIdxs, prev < x → s ≤ x) →
      (prev = s - 1 →
        schedulerTick n (chapterStarts tocIdxs) prev = (s, true)) ∧
      (prev ≠ s - 1 →
        schedulerTick n (chapterStarts tocIdxs) prev = (prev + 1, true))) ∧
    (prev + 1 < n → 1 < (chapterStarts tocIdxs).length →
      (∀ x ∈ chapterStarts tocIdxs, x ≤ prev) →
      schedulerTick n (chapterStarts tocIdxs) prev = (prev + 1, true)) ∧
    (prev + 1 < n → (chapterStarts tocIdxs).length ≤ 1 →
      schedulerTick n (chapterStarts tocIdxs) prev = (prev + 1, true)) := by
  have hcs := chapterStarts_sorted tocIdxs
  refine ⟨?_, ?_, ?_, ?_, ?_⟩
  · intro hlast
    have hcond : n ≤ prev + 1 := by omega
    simp [schedulerTick, hcond]
  · unfold schedulerTick
    split_ifs with h1 h2
    · simpa using hprev
    · cases hf : findNextStart (chapterStarts tocIdxs) prev with
      | none => simp only [hf]; simpa using (by omega : prev + 1 < n)
      | some ns =>
        by_cases hns : ns ≤ prev + 1
        · simp only [hf, if_pos hns]
          show ns < n
          omega
        · simp only [hf, if_neg hns]
          show prev + 1 < n
          omega
    · simpa using (by omega : prev + 1 < n)
  · intro s h1 h2 hmem hgt hleast
    have hf : findNextStart (chapterStarts tocIdxs) prev = some s :=
      find_first_gt_eq_least hcs hmem hgt hleast
    have hcond : ¬ n ≤ prev + 1 := by omega
    constructor
    · intro heq
      have hsle : s ≤ prev + 1 := by omega
      simp [schedulerTick, hcond, h2, hf, hsle]
    · intro hne
      have hsgt : ¬ s ≤ prev + 1 := by omega
      simp [schedulerTick, hcond, h2, hf, hsgt]
  · intro h1 h2 hall
    have hf : findNextStart (chapterStarts tocIdxs) prev = none :=
      find_first_gt_none hall
    have hcond : ¬ n ≤ prev + 1 := by omega
    simp [schedulerTick, hcond, h2, hf]
  · intro h1 h2
    have hcond : ¬ n ≤ prev + 1 := by omega
    have h2' : ¬ 1 < (chapterStarts tocIdxs).length := by omega
    simp [schedulerTick, hcond, h2']

/-- Witness for C2: with 6 tokens and chapter starts [0, 4], a tick at
position 3 jumps straight to 4, and a tick at the last index 5 stops. -/
theorem claim_C2_scheduler_tick_witness :
    (0 < 6 ∧ 3 < 6 ∧ 5 < 6) ∧
    schedulerTick 6 (chapterStarts [0, 4]) 3 = (4, true) ∧
    schedulerTick 6 (chapterStarts [0, 4]) 5 = (5, false) := by
  refine ⟨⟨by decide, by decide, by decide⟩, ?_, ?_⟩
  · exact ((claim_C2_scheduler_tick 6 3 [0, 4] (by decide)
      (by decide)).2.2.1 4 (by decide) (by decide) (by decide) (by decide)
      (by decide)).1 (by decide)
  · exact (claim_C2_scheduler_tick 6 5 [0, 4] (by decide) (by decide)).1
      (by decide)

/-- C8 evaluation at the failing inputs: a corrupt persisted progress record
propagates into the shared catch handler and aborts the open-book flow
(instead of falling back to position 0 with empty bookmarks), and a parsed
out-of-range index (5000 against a 10-token stream) is applied verbatim
rather than clamped into bounds. -/
theorem claim_C8_restore_eval :
    restoreLocation (.error ()) = .aborted ∧
    restoreLocation (.error ()) ≠ .restored 0 [] ∧
    restoreLocation (.ok (some ⟨5000, []⟩)) = .restored 5000 [] ∧
    ¬ ((5000 : Int) ≤ 10 - 1) := by decide

/-- C9 counterexample: from Stopped with rate 0 on a 5-token stream, play is
not a no-op — the play flag flips to true, and a later rate increase then
arms the scheduler without any further play invocation, while without the
play it would stay unarmed. -/
theorem claim_C9_counterexample :
    togglePlay ⟨false, 0, 5⟩ ≠ ⟨false, 0, 5⟩ ∧
    (togglePlay ⟨false, 0, 5⟩).isPlaying = true ∧
    timerArmed (setWpm (togglePlay ⟨false, 0, 5⟩) 300) = true ∧
    timerArmed (setWpm ⟨false, 0, 5⟩ 300) = false := by decide

/-- C9 amended: play unconditionally toggles the play flag, and the interval
effect arms a tick timer after a play from Stopped exactly when the rate is
positive and the stream is non-empty — so with rate 0 or an empty stream the
set flag causes no scheduling until the rate becomes positive. -/
theorem claim_C9_play_guard (s : ReaderState) :
    (togglePlay s).isPlaying = !s.isPlaying ∧
    (s.isPlaying = false →
      (timerArmed (togglePlay s) = true ↔ 0 < s.wpm ∧ 0 < s.wordCount)) := by
  refine ⟨rfl, ?_⟩
  intro hs
  simp [timerArmed, togglePlay, hs]

/-- Witness for C9 at the Stopped state with rate 0 and 5 words. -/
theorem claim_C9_play_guard_witness :
    (timerArmed (togglePlay ⟨false, 0, 5⟩) = true ↔ 0 < 0 ∧ 0 < 5) :=
  (claim_C9_play_guard ⟨false, 0, 5⟩).2 rfl

lemma joinSpace_cons_cons (w a : List Char) (as : List (List Char)) :
    (joinSpace (w :: a :: as)).length
      = w.length + 1 + (joinSpace (a :: as)).length := by
  show (w ++ ' ' :: joinSpace (a :: as)).length
    = w.length + 1 + (joinSpace (a :: as)).length
  simp
  omega

lemma joinSpace_cons_pos (a : List Char) (as : List (List Char))
    (ha : ∀ w ∈ a :: as, w ≠ []) : 0 < (joinSpace (a :: as)).length := by
  have ha0 : a ≠ [] := ha a (by simp)
  have hlen : 0 < a.length := List.length_pos.mpr ha0
  rcases as with _ | ⟨b, bs⟩
  · simpa [joinSpace] using hlen
  · rw [joinSpace_cons_cons]
    omega

lemma joinSpace_length (l : List (List Char)) :
    (joinSpace l).length = (l.map List.length).sum + l.length - 1 := by
  induction l with
  | nil => simp [joinSpace]
  | cons w tail ih =>
    rcases tail with _ | ⟨a, as⟩
    · simp [joinSpace]
    · rw [joinSpace_cons_cons, ih]
      simp only [List.map_cons, List.sum_cons, List.length_cons]
      omega

lemma joinSpace_reverse_length (l : List (List Char)) :
    (joinSpace l.reverse).length = (joinSpace l).length := by
  rw [joinSpace_length, joinSpace_length]
  simp [List.sum_reverse]

lemma takeLineAux_spec (maxChars : Nat) :
    ∀ (stream acc : List (List Char)) (len : Nat),
      (∀ w ∈ stream, w ≠ []) → (∀ w ∈ acc, w ≠ []) →
      len = (joinSpace acc).length →
      ((joinSpace acc).length ≤ maxChars ∨ acc.length ≤ 1) →
      ((joinSpace (takeLineAux maxChars stream acc len).1).length ≤ maxChars ∨
        (takeLineAux maxChars stream acc len).1.length ≤ 1) ∧
      (∀ w ∈ (takeLineAux maxChars stream acc len).1, w ∈ acc ∨ w ∈ stream) ∧
      (∀ w ∈ (takeLineAux maxChars stream acc len).1, w ≠ []) ∧
      (∀ w ∈ (takeLineAux maxChars stream acc len).2, w ∈ stream) := by
  intro stream
  induction stream with
  | nil =>
    intro acc len hs ha hlen hJ
    simp only [takeLineAux]
    exact ⟨hJ, fun w hw => Or.inl hw, ha, by simp⟩
  | cons w rest ih =>
    intro acc len hs ha hlen hJ
    simp only [takeLineAux]
    by_cases hbreak :
        maxChars < len + (w.length + (if 0 < len then 1 else 0)) ∧ 0 < len
    · rw [if_pos hbreak]
      exact ⟨hJ, fun x hx => Or.inl hx, ha, fun x hx => hx⟩
    · rw [if_neg hbreak]
      have hw0 : w ≠ [] := hs w (by simp)
      have ha' : ∀ x ∈ w :: acc, x ≠ [] := by
        intro x hx
        rcases List.mem_cons.mp hx with rfl | hx'
        · exact hw0
        · exact ha x hx'
      have hlen' : len + (w.length + (if 0 < len then 1 else 0))
          = (joinSpace (w :: acc)).length := by
        rcases acc with _ | ⟨a, as⟩
        · have hl0 : len = 0 := by simpa [joinSpace] using hlen
          simp [joinSpace, hl0]
        · have hpos : 0 < (joinSpace (a :: as)).length :=
            joinSpace_cons_pos a as ha
          have h1 : 0 < len := by rw [hlen]; exact hpos
          rw [if_pos h1, joinSpace_cons_cons, hlen]
          omega
      have hJ' : (joinSpace (w :: acc)).length ≤ maxChars ∨
          (w :: acc).length ≤ 1 := by
        by_cases h1 : 0 < len
        · left
          have hnb :
              ¬ maxChars < len + (w.length + (if 0 < len then 1 else 0)) := by
            intro hcon; exact hbreak ⟨hcon, h1⟩
          rw [← hlen']
          omega
        · have hl0 : len = 0 := by omega
          have hacc : acc = [] := by
            rcases acc with _ | ⟨a, as⟩
            · rfl
            · exfalso
              have hpos : 0 < (joinSpace (a :: as)).length :=
                joinSpace_cons_pos a as ha
              rw [← hlen] at hpos
              omega
          right
          simp [hacc]
      obtain ⟨r1, r2, r3, r4⟩ := ih (w :: acc)
        (len + (w.length + (if 0 < len then 1 else 0)))
        (fun x hx => hs x (by simp [hx])) ha' hlen' hJ'
      refine ⟨r1, ?_, r3, ?_⟩
      · intro x hx
        rcases r2 x hx with hx' | hx'
        · rcases List.mem_cons.mp hx' with rfl | hx''
          · exact Or.inr (by simp)
          · exact Or.inl hx''
        · exact Or.inr (by simp [hx'])
      · intro x hx
        exact List.mem_cons_of_mem w (r4 x hx)

lemma buildLines_spec (maxChars : Nat) (keepOrder : Bool) :
    ∀ (fuel dist : Nat) (stream : List (List Char)),
      (∀ w ∈ stream, w ≠ []) →
      (buildLines maxChars keepOrder fuel dist stream).length ≤ fuel ∧
      ∀ line ∈ buildLines maxChars keepOrder fuel dist stream,
        line.text.length ≤ maxChars ∨ ∃ w ∈ stream, line.text = w := by
  intro fuel
  induction fuel with
  | zero => intro dist stream hs; simp [buildLines]
  | succ fuel ih =>
    intro dist stream hs
    rcases stream with _ | ⟨w, rest⟩
    · simp [buildLines]
    · obtain ⟨hJ, hmem1, hne1, hmem2⟩ :=
        takeLineAux_spec maxChars (w :: rest) [] 0 hs (by simp)
          (by simp [joinSpace]) (Or.inl (by simp [joinSpace]))
      simp only [buildLines]
      set pr := takeLineAux maxChars (w :: rest) [] 0 with hpr
      set lineWords := if keepOrder then pr.1 else pr.1.reverse with hlw
      have hs2 : ∀ x ∈ pr.2, x ≠ [] := fun x hx => hs x (hmem2 x hx)
      obtain ⟨ihlen, ihmem⟩ := ih (dist + 1) pr.2 hs2
      have hlift : ∀ line ∈ buildLines maxChars keepOrder fuel (dist + 1) pr.2,
          line.text.length ≤ maxChars ∨ ∃ x ∈ w :: rest, line.text = x := by
        intro line hline
        rcases ihmem line hline with h | ⟨x, hx, hxx⟩
        · exact Or.inl h
        · exact Or.inr ⟨x, hmem2 x hx, hxx⟩
      by_cases hemp : lineWords.isEmpty
      · rw [if_pos hemp]
        exact ⟨Nat.le_succ_of_le ihlen, hlift⟩
      · rw [if_neg hemp]
        constructor
        · simpa using Nat.succ_le_succ ihlen
        · intro line hline
          rcases List.mem_cons.mp hline with rfl | hline'
          · rcases hJ with hJ | hJ
            · left
              show (joinSpace lineWords).length ≤ maxChars
              have heq : (joinSpace lineWords).length
                  = (joinSpace pr.1).length := by
                rw [hlw]
                cases keepOrder
                · simp [joinSpace_reverse_length]
                · simp
              rw [heq]
              exact hJ
            · right
              have hne : lineWords ≠ [] := by
                simpa [List.isEmpty_iff] using hemp
              have hlen1 : lineWords.length = pr.1.length := by
                rw [hlw]; cases keepOrder <;> simp
              have hone : lineWords.length = 1 := by
                have := List.length_pos.mpr hne
                omega
              obtain ⟨u, hu⟩ := List.length_eq_one.mp hone
              have humem : u ∈ pr.1 := by
                rcases hko : keepOrder with _ | _
                · rw [hlw, hko] at hu
                  simp at hu
                  have : u ∈ pr.1.reverse := by rw [hu]; simp
                  simpa using this
                · rw [hlw, hko] at hu
                  simp at hu
                  simp [hu]
              have hor := hmem1 u humem
              refine ⟨u, by simpa using hor, ?_⟩
              show joinSpace lineWords = u
              rw [hu]
              rfl
          · exact hlift line hline'

/-- C6 counterexample: at the claim's own fixture — tokens
["a","bb","ccc","dddd","e"], current index 2, maxLineChars 5 — the after
side produces the line "dddd e" of rendered length 6 > 5, which is not a
single token of the stream: the implementation clamps the limit to
`max 18 maxLineChars` before the greedy fill. -/
theorem claim_C6_counterexample :
    (contextLines [strL "a", strL "bb", strL "ccc", strL "dddd", strL "e"]
        2 5).after = [⟨strL "dddd e", 1⟩] ∧
    5 < (strL "dddd e").length ∧
    (∀ w ∈ [strL "a", strL "bb", strL "ccc", strL "dddd", strL "e"],
      strL "dddd e" ≠ w) := by decide

/-- C6 amended: for every array of non-empty tokens, in-range current index
and requested limit, the composer yields at most 3 lines on each side, and
every produced line's rendered text has length at most `max 18 maxLineChars`
(the implementation's clamped limit) unless the line consists of a single
token of the stream. -/
theorem claim_C6_context_lines (words : List (List Char)) (p mc : Nat)
    (hp : p ≤ words.length) (hw : ∀ w ∈ words, w ≠ []) :
    (contextLines words p mc).before.length ≤ 3 ∧
    (contextLines words p mc).after.length ≤ 3 ∧
    (∀ line ∈ (contextLines words p mc).before,
      line.text.length ≤ max 18 mc ∨ ∃ w ∈ words, line.text = w) ∧
    (∀ line ∈ (contextLines words p mc).after,
      line.text.length ≤ max 18 mc ∨ ∃ w ∈ words, line.text = w) := by
  have hwb : ∀ w ∈ (words.take p).reverse, w ≠ [] := by
    intro w hw'
    exact hw w (List.take_subset p words (List.mem_reverse.mp hw'))
  have hwa : ∀ w ∈ words.drop (p + 1), w ≠ [] := by
    intro w hw'
    exact hw w (List.drop_subset (p + 1) words hw')
  obtain ⟨hbl, hbm⟩ :=
    buildLines_spec (max 18 mc) true 3 1 ((words.take p).reverse) hwb
  obtain ⟨hal, ham⟩ :=
    buildLines_spec (max 18 mc) false 3 1 (words.drop (p + 1)) hwa
  simp only [contextLines]
  refine ⟨by simpa using hbl, hal, ?_, ?_⟩
  · intro line hline
    have hline' := List.mem_reverse.mp hline
    rcases hbm line hline' with h | ⟨w, hwmem, hweq⟩
    · exact Or.inl h
    · exact Or.inr ⟨w,
        List.take_subset p words (List.mem_reverse.mp hwmem), hweq⟩
  · intro line hline
    rcases ham line hline with h | ⟨w, hwmem, hweq⟩
    · exact Or.inl h
    · exact Or.inr ⟨w, List.drop_subset (p + 1) words hwmem, hweq⟩

/-- Witness for C6 at the fixture tokens with current index 2 and limit 5. -/
theorem claim_C6_context_lines_witness :
    (2 ≤ ([strL "a", strL "bb", strL "ccc", strL "dddd", strL "e"]
        : List (List Char)).length) ∧
    (contextLines [strL "a", strL "bb", strL "ccc", strL "dddd", strL "e"]
      2 5).after.length ≤ 3 :=
  ⟨by decide,
    (claim_C6_context_lines
      [strL "a", strL "bb", strL "ccc", strL "dddd", strL "e"] 2 5
      (by decide) (by decide)).2.1⟩

/-- Witness for C5 at the token "!!", which is a member of its own
normalization output. -/
theorem claim_C5_amended_witness : strL "!!" ≠ [] :=
  (claim_C5_amended (strL "!!")).2 (strL "!!") (by decide)
